import Mathlib

set_option maxRecDepth 10000

/-!
Verification development for the siromix exam-mixing core
(`lib/mixAlgorithm.ts`, `store/mixStore.ts`,
`pages/MixedResult/components/AnswerKeyTable.tsx`).

The TypeScript source is shallowly embedded: JavaScript numbers are
modelled as `Nat`/`Int` with explicit `% 2^32` where the source wraps,
`Math.random()` and `Date.now()` become explicit input streams, the
JavaScript `undefined` value is modelled with `Option`, the unbounded
`while` loop of `generateExamCodes` is modelled with explicit fuel
(`none` = the loop has not terminated within the given fuel), and the
JavaScript remainder operator `%` on possibly-negative operands is
modelled with `Int.tmod` (both truncate towards zero).
-/

namespace Siromix

/-- Content atom of a question stem or option (`Segment` in `mixStore.ts`). -/
inductive Segment
  | text (t : String)
  | image (assetPath : String)
  | math (omml : String)
deriving DecidableEq, Repr

/-- `OptionItem` from `mixStore.ts`. -/
structure OptionItem where
  label : String
  locked : Bool
  content : List Segment
deriving DecidableEq, Repr

/-- `Question` from `mixStore.ts`. -/
structure Question where
  number : Nat
  stem : List Segment
  options : List OptionItem
  correct_label : String
deriving DecidableEq, Repr

/-- `ParsedDoc` from `mixStore.ts`. -/
structure ParsedDoc where
  questions : List Question
deriving DecidableEq, Repr

/-- `MixedOption` from `mixAlgorithm.ts`.  The new `label` is
`labels[idx]` in the source, which is the JavaScript `undefined` value
when `idx` is past the end of the label alphabet; hence `Option String`. -/
structure MixedOption where
  label : Option String
  originalLabel : String
  content : List Segment
deriving DecidableEq, Repr

/-- `MixedQuestion` from `mixAlgorithm.ts`. -/
structure MixedQuestion where
  originalNumber : Nat
  displayNumber : Nat
  stem : List Segment
  options : List MixedOption
  correctAnswer : String
deriving DecidableEq, Repr

/-- `MixedExam` from `mixAlgorithm.ts`. -/
structure MixedExam where
  examCode : String
  questions : List MixedQuestion
deriving DecidableEq, Repr

/-! ### Seeded generator (`seededRandom`)

`state = (state * 1664525 + 1013904223) % 2 ** 32; return state / 2 ** 32`.

The JavaScript `%` truncates towards zero, which on integers is
`Int.tmod`; the general (possibly negative seed) stream is modelled over
`Int`, and a `Nat` version is used where the callers provably pass
nonnegative seeds. -/

/-- One LCG transition for a nonnegative state (`Nat` model of
`(state * 1664525 + 1013904223) % 2 ** 32`). -/
def lcgNext (state : Nat) : Nat :=
  (state * 1664525 + 1013904223) % 2 ^ 32

/-- One LCG transition over `Int`, with the JavaScript truncating
remainder. -/
def jsLcgNext (state : Int) : Int :=
  Int.tmod (state * 1664525 + 1013904223) (2 ^ 32)

/-- The internal state of `seededRandom(seed)` after `n` invocations of
the returned closure. -/
def jsLcgState (seed : Int) : Nat → Int
  | 0 => seed
  | n + 1 => jsLcgNext (jsLcgState seed n)

/-- The value returned by the `n`-th (0-based) call of the closure
produced by `seededRandom(seed)`: `state / 2 ** 32`. -/
def seededRandomVal (seed : Int) (n : Nat) : ℚ :=
  (jsLcgState seed (n + 1) : ℚ) / 2 ^ 32

/-! ### Fisher-Yates shuffle (`shuffleArray`) -/

/-- Swap the entries at indices `i` and `j`; if either index is out of
range the list is returned unchanged (in the embedded code both indices
are always in range when the seed is nonnegative). -/
def swapList (l : List α) (i j : Nat) : List α :=
  match l[i]?, l[j]? with
  | some a, some b => (l.set i b).set j a
  | _, _ => l

/-- The `for (let i = shuffled.length - 1; i > 0; i--)` loop of
`shuffleArray`, for nonnegative seeds: `i` is the current loop index,
`state` the generator state; `j = Math.floor(rng() * (i + 1))` is
`state * (i + 1) / 2 ^ 32` in exact integer arithmetic. -/
def fyAux (l : List α) (state : Nat) : Nat → List α
  | 0 => l
  | i + 1 =>
    let st := lcgNext state
    let j := st * (i + 2) / 2 ^ 32
    fyAux (swapList l (i + 1) j) st i

/-- `shuffleArray` from `mixAlgorithm.ts`, for nonnegative seeds. -/
def shuffleArray (l : List α) (seed : Nat) : List α :=
  fyAux l seed (l.length - 1)

/-! ### Fisher-Yates shuffle over `Int` seeds (full JavaScript model)

For a negative seed the generator state, and hence the draw
`j = Math.floor(rng() * (i + 1))`, can be negative.  In JavaScript
`shuffled[j]` with a negative `j` is an ordinary property access: it
reads `undefined` and the subsequent write stores the displaced element
on a non-index property.  The backing store is therefore modelled as a
total function `Int → Option α` (with `none` for `undefined`), from
which the final array of length `n` is read back. -/

/-- One destructuring swap `[a[i], a[j]] = [a[j], a[i]]` on the
property store. -/
def jsSwap (f : Int → Option α) (i j : Int) : Int → Option α :=
  fun k => if k = i then f j else if k = j then f i else f k

/-- The shuffle loop over the property store, with the `Int`-valued
generator state; `j` is `Math.floor(state / 2 ^ 32 * (i + 1))`, i.e.
floor division of `state * (i + 1)` by `2 ^ 32`. -/
def fyAuxJS (f : Int → Option α) (state : Int) : Nat → (Int → Option α)
  | 0 => f
  | i + 1 =>
    let st := jsLcgNext state
    let j : Int := Int.fdiv (st * (i + 2)) (2 ^ 32)
    fyAuxJS (jsSwap f (i + 1) j) st i

/-- The property store holding the spread `[...array]`: index
properties `0 .. n-1` hold the elements, every other property reads
`undefined`. -/
def storeOf (l : List α) : Int → Option α :=
  fun k => if k < 0 then none else l[k.toNat]?

/-- `shuffleArray` from `mixAlgorithm.ts` over an arbitrary integer
seed: spread the input into the store, run the loop, read indices
`0 .. n-1` back. -/
def shuffleArrayJS (l : List α) (seed : Int) : List (Option α) :=
  (List.range l.length).map fun (k : Nat) =>
    fyAuxJS (storeOf l) seed (l.length - 1) (k : Int)

/-! ### Option remapper (`shuffleOptions`) -/

/-- The label alphabet `["A", "B", "C", "D", "E", "F"]`. -/
def labels : List String := ["A", "B", "C", "D", "E", "F"]

/-- A JavaScript `Map` whose values may themselves be `undefined`
(`labels[idx]` past the alphabet), as an insertion-ordered association
list. -/
abbrev MapSS : Type := List (String × Option String)

/-- `Map.prototype.set`: overwrite in place if the key is present,
otherwise append. -/
def mapSet (m : MapSS) (k : String) (v : Option String) : MapSS :=
  if (m.map Prod.fst).contains k then
    m.map fun p => if p.1 = k then (k, v) else p
  else m ++ [(k, v)]

/-- `Map.prototype.get`: `none` when the key is absent (JavaScript
`undefined`). -/
def mapGet (m : MapSS) (k : String) : Option (Option String) :=
  (m.find? fun p => p.1 == k).map Prod.snd

/-- JavaScript `v || d` for a possibly-`undefined` string `v`:
`undefined` and the empty string are falsy. -/
def jsOr (v : Option String) (d : String) : String :=
  match v with
  | some s => if s = "" then d else s
  | none => d

/-- The `shuffled.map((opt, idx) => ...)` body of `shuffleOptions`:
assigns `labels[idx]` as the new label and records
`mapping.set(opt.label, newLabel)`. -/
def shuffleOptionsAux : List OptionItem → Nat → MapSS → List MixedOption × MapSS
  | [], _, m => ([], m)
  | o :: rest, idx, m =>
    let newLabel := labels[idx]?
    let r := shuffleOptionsAux rest (idx + 1) (mapSet m o.label newLabel)
    (⟨newLabel, o.label, o.content⟩ :: r.1, r.2)

/-- `shuffleOptions` from `mixAlgorithm.ts` (nonnegative seed). -/
def shuffleOptions (options : List OptionItem) (seed : Nat) :
    List MixedOption × MapSS :=
  shuffleOptionsAux (shuffleArray options seed) 0 []

/-! ### Exam codes (`generateExamCode`, `generateExamCodes`)

`Math.random()` is modelled as an explicit stream `rs : Nat → ℚ` of
drawn values; the unbounded `while (codes.size < count)` loop takes
explicit fuel and returns `none` when the fuel is exhausted before the
loop exits. -/

/-- The integer `Math.floor(100 + r * 900)` for one drawn value `r`. -/
def genExamCodeNum (r : ℚ) : Int :=
  ⌊(100 : ℚ) + r * 900⌋

/-- Decimal string of an integer, as JavaScript `Number.toString()`
renders an integral number. -/
def intToDecString (n : Int) : String :=
  if n < 0 then "-" ++ Nat.repr (-n).toNat else Nat.repr n.toNat

/-- `generateExamCode` from `mixAlgorithm.ts`, applied to one value
drawn from `Math.random()`. -/
def genExamCode (r : ℚ) : String :=
  intToDecString (genExamCodeNum r)

/-- `Set.prototype.add` on an insertion-ordered duplicate-free list. -/
def setAdd (l : List String) (x : String) : List String :=
  if x ∈ l then l else l ++ [x]

/-- The `while (codes.size < count)` loop of `generateExamCodes`;
`k` indexes the `Math.random()` stream, `codes` is the `Set` in
insertion order (which `Array.from` preserves). -/
def genCodesLoop (count : Int) (rs : Nat → ℚ) :
    Nat → Nat → List String → Option (List String)
  | 0, _, codes => if (codes.length : Int) < count then none else some codes
  | fuel + 1, k, codes =>
    if (codes.length : Int) < count then
      genCodesLoop count rs fuel (k + 1) (setAdd codes (genExamCode (rs k)))
    else some codes

/-- `generateExamCodes` from `mixAlgorithm.ts`. -/
def generateExamCodes (count : Int) (rs : Nat → ℚ) (fuel : Nat) :
    Option (List String) :=
  genCodesLoop count rs fuel 0 []

/-! ### Variant builder (`mixExam`) -/

/-- The body of the `shuffledQuestions.forEach((q, idx) => ...)`:
shuffle the options with the per-question seed, look the source
`correct_label` up in the mapping, and fall back to the source label
when the lookup is `undefined` (`mapping.get(...) || q.correct_label`). -/
def mixQuestion (q : Question) (seed : Nat) (idx : Nat) : MixedQuestion :=
  let r := shuffleOptions q.options seed
  let newCorrectLabel := jsOr ((mapGet r.2 q.correct_label).bind id) q.correct_label
  ⟨q.number, idx + 1, q.stem, r.1, newCorrectLabel⟩

/-- The `forEach` over the shuffled questions; the per-question seed is
`variantSeed + idx`. -/
def mixQuestionsAux (variantSeed : Nat) : List Question → Nat → List MixedQuestion
  | [], _ => []
  | q :: rest, idx =>
    mixQuestion q (variantSeed + idx) idx :: mixQuestionsAux variantSeed rest (idx + 1)

/-- One loop iteration of `mixExam`: shuffle the question order with the
variant seed, then process every question. -/
def mixVariant (doc : ParsedDoc) (variantSeed : Nat) (code : String) : MixedExam :=
  ⟨code, mixQuestionsAux variantSeed (shuffleArray doc.questions variantSeed) 0⟩

/-- The `for (let v = 0; v < numVariants; v++)` loop of `mixExam`.
`nowAt v` is the value `Date.now()` returns in iteration `v` (the
source calls `Date.now()` afresh in every iteration); the variant seed
is `Date.now() + v * 1000`. -/
def mixExamLoop (doc : ParsedDoc) (nowAt : Nat → Nat) (codes : List String) :
    Nat → Nat → List MixedExam
  | _, 0 => []
  | v, rem + 1 =>
    mixVariant doc (nowAt v + v * 1000) (codes.getD v "")
      :: mixExamLoop doc nowAt codes (v + 1) rem

/-- `mixExam` from `mixAlgorithm.ts`.  External entropy is explicit:
`nowAt` is the `Date.now()` stream, `rs` the `Math.random()` stream;
`none` means `generateExamCodes` has not terminated within `fuel`
iterations. -/
def mixExam (doc : ParsedDoc) (numVariants : Int) (nowAt : Nat → Nat)
    (rs : Nat → ℚ) (fuel : Nat) : Option (List MixedExam) :=
  (generateExamCodes numVariants rs fuel).map fun codes =>
    mixExamLoop doc nowAt codes 0 numVariants.toNat

/-! ### Answer key table (`AnswerKeyTable.tsx`)

Only the data content of the rendered table is modelled: the row label,
the original-answer column and the per-variant cells. -/

/-- One rendered row of the answer-key table. -/
structure AnswerKeyRow where
  questionNumber : Nat
  originalAnswer : String
  cells : List String
deriving DecidableEq, Repr

/-- JavaScript `s || "-"` where `s` may be `undefined`. -/
def orDash (s : Option String) : String :=
  jsOr s "-"

/-- One table cell: `exam.questions.find((q) => q.displayNumber ===
questionNumber)?.correctAnswer || "-"`. -/
def answerKeyCell (exam : MixedExam) (questionNumber : Nat) : String :=
  orDash ((exam.questions.find? fun q => q.displayNumber == questionNumber).map
    MixedQuestion.correctAnswer)

/-- `mixedExams[0]?.questions.length || 0`. -/
def answerKeyNumQuestions (mixedExams : List MixedExam) : Nat :=
  match mixedExams with
  | [] => 0
  | e :: _ => e.questions.length

/-- The data content of `AnswerKeyTable`: for each row index `idx`
(question number `idx + 1`), the original answer `originalAnswers[idx]
|| "-"` and one cell per variant. -/
def answerKeyTable (mixedExams : List MixedExam) (originalAnswers : List String) :
    List AnswerKeyRow :=
  (List.range (answerKeyNumQuestions mixedExams)).map fun idx =>
    ⟨idx + 1, orDash originalAnswers[idx]?,
      mixedExams.map fun e => answerKeyCell e (idx + 1)⟩

/-! ### Concrete fixtures used by counterexamples and witnesses -/

/-- Two options labelled A and B with empty content. -/
def cexOptions2 : List OptionItem := [⟨"A", false, []⟩, ⟨"B", false, []⟩]

/-- A document whose single question has `correct_label = "Z"`, matching
no option. -/
def cexDocBad : ParsedDoc := ⟨[⟨1, [], cexOptions2, "Z"⟩]⟩

/-- Seven options A-G, one more than the label alphabet. -/
def cexOptions7 : List OptionItem :=
  ["A", "B", "C", "D", "E", "F", "G"].map fun s => ⟨s, false, []⟩

/-- A document whose single question has 7 options A-G (one more than
the label alphabet) and correct label B. -/
def cexDoc7 : ParsedDoc := ⟨[⟨1, [], cexOptions7, "B"⟩]⟩

/-- A well-formed two-question document. -/
def cexDoc2 : ParsedDoc :=
  ⟨[⟨1, [], cexOptions2, "A"⟩, ⟨2, [], cexOptions2, "B"⟩]⟩

/-- A variant in which display position 1 shows source question 2 and
vice versa, with distinct correct answers. -/
def cexExamKey : MixedExam :=
  ⟨"101", [⟨2, 1, [], [], "A"⟩, ⟨1, 2, [], [], "B"⟩]⟩

/-! ### Decimal re-reading (proof tool only)

`decValue` re-reads a decimal string; it is used to prove that
`Nat.repr` is injective on the three-digit range. -/

/-- Numeric value of a decimal digit character. -/
def decDigit (c : Char) : Nat := c.toNat - 48

/-- Value of a decimal string. -/
def decValue (s : String) : Nat :=
  s.data.foldl (fun a c => 10 * a + decDigit c) 0

/-- The 900 possible generated exam codes, `"100" .. "999"`. -/
def codeStrings : List String :=
  (List.range 900).map fun i => Nat.repr (100 + i)

/-! ### Theorems -/

theorem swapList_length (l : List α) (i j : Nat) :
    (swapList l i j).length = l.length := by
  unfold swapList
  cases l[i]? <;> cases l[j]? <;> simp

theorem swapList_perm (l : List α) (i j : Nat) : (swapList l i j).Perm l := by
  classical
  cases hi : l[i]? with
  | none =>
    have hsw : swapList l i j = l := by
      unfold swapList
      rw [hi]
    rw [hsw]
  | some a =>
    cases hj : l[j]? with
    | none =>
      have hsw : swapList l i j = l := by
        unfold swapList
        rw [hi, hj]
      rw [hsw]
    | some b =>
      have hsw : swapList l i j = (l.set i b).set j a := by
        unfold swapList
        rw [hi, hj]
      obtain ⟨hilt, hia⟩ := List.getElem?_eq_some.mp hi
      obtain ⟨hjlt, hjb⟩ := List.getElem?_eq_some.mp hj
      subst hia
      subst hjb
      rw [hsw, List.perm_iff_count]
      intro x
      have hbi : (if l[i] == x then 1 else 0) ≤ l.count x := by
        by_cases hx : l[i] = x
        · simp only [hx, beq_self_eq_true, if_pos]
          exact List.count_pos_iff.mpr (hx ▸ List.getElem_mem hilt)
        · simp [hx]
      by_cases hij : i = j
      · subst hij
        rw [List.set_set]
        rw [List.count_set (l[i]) x l i hilt]
        omega
      · have hjlt2 : j < (l.set i l[j]).length := by simpa using hjlt
        have e1 : ((l.set i l[j]).set j (l[i])).count x
            = (l.set i l[j]).count x
              - (if (l.set i l[j])[j] == x then 1 else 0)
              + (if l[i] == x then 1 else 0) :=
          List.count_set (l[i]) x (l.set i l[j]) j hjlt2
        have e2 : (l.set i l[j]).count x
            = l.count x - (if l[i] == x then 1 else 0)
              + (if l[j] == x then 1 else 0) :=
          List.count_set (l[j]) x l i hilt
        have hgj : (l.set i l[j])[j] = l[j] :=
          List.getElem_set_ne hij hjlt2
        rw [hgj] at e1
        rw [e1, e2]
        omega

theorem fyAux_perm (l : List α) (state : Nat) (m : Nat) : (fyAux l state m).Perm l := by
  induction m generalizing l state with
  | zero => exact List.Perm.refl l
  | succ i ih =>
    exact (ih (swapList l (i + 1) (lcgNext state * (i + 2) / 2 ^ 32)) (lcgNext state)).trans
      (swapList_perm l _ _)

/-- The shuffle permutes its input (nonnegative-seed model). -/
theorem shuffleArray_perm (l : List α) (seed : Nat) : (shuffleArray l seed).Perm l :=
  fyAux_perm l seed (l.length - 1)

theorem shuffleArray_length (l : List α) (seed : Nat) :
    (shuffleArray l seed).length = l.length :=
  (shuffleArray_perm l seed).length_eq

theorem shuffleArray_short (l : List α) (seed : Nat) (h : l.length ≤ 1) :
    shuffleArray l seed = l := by
  unfold shuffleArray
  have : l.length - 1 = 0 := by omega
  rw [this]
  rfl

/-! #### Agreement of the `Int` shuffle model with the `Nat` model on
nonnegative seeds -/

theorem lcgNext_lt (state : Nat) : lcgNext state < 2 ^ 32 :=
  Nat.mod_lt _ (by norm_num)

theorem jsLcgNext_coe (st : Nat) : jsLcgNext (st : Int) = (lcgNext st : Int) := by
  unfold jsLcgNext lcgNext
  rw [Int.tmod_eq_emod (by positivity) (by positivity)]
  push_cast
  rfl

theorem jsDraw_coe (st : Nat) (n : Nat) :
    Int.fdiv ((st : Int) * (n : Int)) (2 ^ 32) = (st * n / 2 ^ 32 : Nat) := by
  rw [Int.fdiv_eq_ediv _ (by positivity)]
  push_cast
  norm_num

theorem storeOf_coe (l : List α) (n : Nat) : storeOf l (n : Int) = l[n]? := by
  unfold storeOf
  rw [if_neg (by omega)]
  simp

theorem swapList_set (l : List α) (i j : Nat) (hi : i < l.length)
    (hj : j < l.length) :
    swapList l i j = (l.set i (l[j])).set j (l[i]) := by
  unfold swapList
  rw [List.getElem?_eq_getElem hi, List.getElem?_eq_getElem hj]

theorem swapList_getElem? (l : List α) (i j : Nat) (hi : i < l.length)
    (hj : j < l.length) (k : Nat) :
    (swapList l i j)[k]? =
      if k = j then some (l[i]) else if k = i then some (l[j])
      else l[k]? := by
  rw [swapList_set l i j hi hj]
  by_cases hkj : k = j
  · subst hkj
    rw [if_pos rfl, List.getElem?_set_self (by simpa using hj)]
  · rw [if_neg hkj, List.getElem?_set_ne (fun h => hkj h.symm)]
    by_cases hki : k = i
    · subst hki
      rw [if_pos rfl, List.getElem?_set_self hi]
    · rw [if_neg hki, List.getElem?_set_ne (fun h => hki h.symm)]

theorem jsSwap_storeOf (l : List α) (i j : Nat) (hi : i < l.length)
    (hj : j < l.length) :
    jsSwap (storeOf l) (i : Int) (j : Int) = storeOf (swapList l i j) := by
  funext k
  show (if k = (i : Int) then storeOf l (j : Int)
      else if k = (j : Int) then storeOf l (i : Int) else storeOf l k)
    = storeOf (swapList l i j) k
  by_cases hk0 : k < 0
  · rw [if_neg (by omega), if_neg (by omega)]
    unfold storeOf
    rw [if_pos hk0, if_pos hk0]
  · obtain ⟨n, rfl⟩ : ∃ n : Nat, k = (n : Int) := ⟨k.toNat, by omega⟩
    simp only [storeOf_coe]
    rw [swapList_getElem? l i j hi hj n]
    by_cases hni : n = i
    · subst hni
      rw [if_pos rfl]
      by_cases hnj : n = j
      · subst hnj
        rw [if_pos rfl, List.getElem?_eq_getElem hj]
      · rw [if_neg (by omega : ¬n = j), if_pos rfl,
          List.getElem?_eq_getElem hj]
    · rw [if_neg (by omega)]
      by_cases hnj : n = j
      · subst hnj
        rw [if_pos rfl, if_pos rfl, List.getElem?_eq_getElem hi]
      · rw [if_neg (by omega), if_neg hnj, if_neg hni]

theorem fyAuxJS_storeOf (m : Nat) :
    ∀ (l : List α) (st : Nat), m < l.length →
      fyAuxJS (storeOf l) (st : Int) m = storeOf (fyAux l st m) := by
  induction m with
  | zero => intro l st _; rfl
  | succ i ih =>
    intro l st hm
    have hj : lcgNext st * (i + 2) / 2 ^ 32 < l.length := by
      have h0 := lcgNext_lt st
      have h2 : lcgNext st * (i + 2) < 2 ^ 32 * (i + 2) :=
        mul_lt_mul_of_pos_right h0 (by omega)
      have h3 : lcgNext st * (i + 2) / 2 ^ 32 < i + 2 :=
        Nat.div_lt_of_lt_mul h2
      omega
    show fyAuxJS (jsSwap (storeOf l) ((i : Int) + 1)
        (Int.fdiv (jsLcgNext (st : Int) * ((i : Int) + 2)) (2 ^ 32)))
        (jsLcgNext (st : Int)) i
      = storeOf (fyAux (swapList l (i + 1) (lcgNext st * (i + 2) / 2 ^ 32))
        (lcgNext st) i)
    rw [jsLcgNext_coe]
    have hc2 : (lcgNext st : Int) * ((i : Int) + 2)
        = (lcgNext st : Int) * ((i + 2 : Nat) : Int) := by
      push_cast
      ring
    rw [hc2, jsDraw_coe]
    have hc1 : ((i : Int) + 1) = ((i + 1 : Nat) : Int) := by push_cast; ring
    rw [hc1, jsSwap_storeOf l (i + 1) _ hm hj]
    exact ih _ (lcgNext st) (by rw [swapList_length]; omega)

theorem storeOf_readback (l : List α) :
    (List.range l.length).map (fun (k : Nat) => storeOf l (k : Int)) = l.map some := by
  apply List.ext_getElem
  · simp
  · intro i h1 h2
    simp only [List.getElem_map, List.getElem_range]
    rw [storeOf_coe]
    have hi : i < l.length := by simpa using h1
    simp [List.getElem?_eq_getElem hi]

/-- A list of at most one element is returned unchanged for every
integer seed (the loop body never runs). -/
theorem shuffleArrayJS_short (l : List α) (seed : Int) (h : l.length ≤ 1) :
    shuffleArrayJS l seed = l.map some := by
  unfold shuffleArrayJS
  have h0 : l.length - 1 = 0 := by omega
  rw [h0]
  exact storeOf_readback l

/-- On a nonnegative seed the full JavaScript model agrees with the
`Nat` model (no out-of-range accesses occur). -/
theorem shuffleArrayJS_coe (l : List α) (s : Nat) :
    shuffleArrayJS l (s : Int) = (shuffleArray l s).map some := by
  cases l with
  | nil => rfl
  | cons a t =>
    unfold shuffleArrayJS
    have hm : (a :: t).length - 1 < (a :: t).length := by simp
    rw [fyAuxJS_storeOf ((a :: t).length - 1) (a :: t) s hm]
    generalize hL : fyAux (a :: t) s ((a :: t).length - 1) = L
    have hlen : (a :: t).length = L.length := by
      rw [← hL]
      exact (fyAux_perm _ _ _).length_eq.symm
    rw [hlen, storeOf_readback]
    show L.map some = (shuffleArray (a :: t) s).map some
    rw [← hL]
    rfl

/-! #### Map and option-remapper lemmas -/

theorem mapGet_cons_ne (p : String × Option String) (m : MapSS) (k : String)
    (h : p.1 ≠ k) : mapGet (p :: m) k = mapGet m k := by
  unfold mapGet
  rw [List.find?_cons_of_neg _ (by simp [h])]

theorem mapGet_cons_self (p : String × Option String) (m : MapSS) (k : String)
    (h : p.1 = k) : mapGet (p :: m) k = some p.2 := by
  unfold mapGet
  rw [List.find?_cons_of_pos _ (by simp [h])]
  rfl

theorem keys_contains_of_mem {m : MapSS} {k : String}
    (h : ∃ v2 : Option String, (k, v2) ∈ m) :
    (m.map Prod.fst).contains k = true := by
  obtain ⟨v2, hv⟩ := h
  exact List.elem_eq_true_of_mem (List.mem_map.mpr ⟨(k, v2), hv, rfl⟩)

/-- When a key is absent, `mapSet`'s overwrite branch never fires on any
entry; useful for unfolding. -/
theorem mapSet_map_of_not_contains {rest : MapSS} {k : String} (v : Option String)
    (h : ¬(rest.map Prod.fst).contains k = true) :
    (rest.map fun q => if q.1 = k then (k, v) else q) = rest := by
  have h2 : ∀ q ∈ rest, (if q.1 = k then (k, v) else q) = id q := by
    intro q hq
    rw [if_neg, id]
    intro hqk
    exact h (keys_contains_of_mem ⟨q.2, by rw [← hqk]; exact hq⟩)
  rw [List.map_congr_left h2, List.map_id]

theorem contains_cons_ne {p : String × Option String} {rest : MapSS} {k : String}
    (hc : ((p :: rest).map Prod.fst).contains k = true) (hk : p.1 ≠ k) :
    (rest.map Prod.fst).contains k = true := by
  simp only [List.map_cons, List.contains_cons] at hc
  rcases Bool.or_eq_true_iff.mp hc with h | h
  · exact absurd (by simpa using h : k = p.1) fun hh => hk hh.symm
  · exact h

theorem contains_cons_of_tail {p : String × Option String} {rest : MapSS} {k : String}
    (h : (rest.map Prod.fst).contains k = true) :
    ((p :: rest).map Prod.fst).contains k = true := by
  simp only [List.map_cons, List.contains_cons]
  exact Bool.or_eq_true_iff.mpr (Or.inr h)

theorem contains_cons_of_head {p : String × Option String} {rest : MapSS} {k : String}
    (h : p.1 = k) : ((p :: rest).map Prod.fst).contains k = true := by
  simp only [List.map_cons, List.contains_cons]
  exact Bool.or_eq_true_iff.mpr (Or.inl (by simp [h]))

theorem mapGet_mapSet_self (m : MapSS) (k : String) (v : Option String) :
    mapGet (mapSet m k v) k = some v := by
  induction m with
  | nil =>
    have h1 : mapSet [] k v = [(k, v)] := by simp [mapSet]
    rw [h1]
    exact mapGet_cons_self _ _ _ rfl
  | cons p rest ih =>
    unfold mapSet
    by_cases hc : ((p :: rest).map Prod.fst).contains k = true
    · rw [if_pos hc]
      show mapGet ((if p.1 = k then (k, v) else p)
        :: rest.map fun q => if q.1 = k then (k, v) else q) k = some v
      by_cases hk : p.1 = k
      · rw [if_pos hk]
        exact mapGet_cons_self _ _ _ rfl
      · rw [if_neg hk, mapGet_cons_ne p _ k hk]
        have hrest := contains_cons_ne hc hk
        have h3 := ih
        unfold mapSet at h3
        rwa [if_pos hrest] at h3
    · rw [if_neg hc]
      show mapGet (p :: (rest ++ [(k, v)])) k = some v
      have hk : p.1 ≠ k := fun h => hc (contains_cons_of_head h)
      rw [mapGet_cons_ne p _ k hk]
      have hrest : ¬(rest.map Prod.fst).contains k = true :=
        fun h => hc (contains_cons_of_tail h)
      have h3 := ih
      unfold mapSet at h3
      rwa [if_neg hrest] at h3

theorem mapGet_mapSet_ne (m : MapSS) (k k2 : String) (v : Option String)
    (hne : k ≠ k2) : mapGet (mapSet m k v) k2 = mapGet m k2 := by
  induction m with
  | nil =>
    have h1 : mapSet [] k v = [(k, v)] := by simp [mapSet]
    rw [h1, mapGet_cons_ne _ _ _ hne]
  | cons p rest ih =>
    unfold mapSet
    by_cases hc : ((p :: rest).map Prod.fst).contains k = true
    · rw [if_pos hc]
      show mapGet ((if p.1 = k then (k, v) else p)
        :: rest.map fun q => if q.1 = k then (k, v) else q) k2
        = mapGet (p :: rest) k2
      have tail_eq : mapGet (rest.map fun q => if q.1 = k then (k, v) else q) k2
          = mapGet rest k2 := by
        by_cases hrest : (rest.map Prod.fst).contains k = true
        · have h3 := ih
          unfold mapSet at h3
          rwa [if_pos hrest] at h3
        · rw [mapSet_map_of_not_contains v hrest]
      by_cases hp : p.1 = k
      · rw [if_pos hp, mapGet_cons_ne _ _ _ hne,
          mapGet_cons_ne p _ _ (hp ▸ hne), tail_eq]
      · rw [if_neg hp]
        by_cases hp2 : p.1 = k2
        · rw [mapGet_cons_self p _ _ hp2, mapGet_cons_self p _ _ hp2]
        · rw [mapGet_cons_ne p _ _ hp2, mapGet_cons_ne p _ _ hp2, tail_eq]
    · rw [if_neg hc]
      show mapGet (p :: (rest ++ [(k, v)])) k2 = mapGet (p :: rest) k2
      have hrest : ¬(rest.map Prod.fst).contains k = true :=
        fun h => hc (contains_cons_of_tail h)
      by_cases hp2 : p.1 = k2
      · rw [mapGet_cons_self p _ _ hp2, mapGet_cons_self p _ _ hp2]
      · rw [mapGet_cons_ne p _ _ hp2, mapGet_cons_ne p _ _ hp2]
        have h3 := ih
        unfold mapSet at h3
        rwa [if_neg hrest] at h3

theorem mapSet_overwrite_keys (m : MapSS) (k : String) (v : Option String) :
    ((m.map fun p => if p.1 = k then (k, v) else p).map Prod.fst)
      = m.map Prod.fst := by
  rw [List.map_map]
  apply List.map_congr_left
  intro p _
  show Prod.fst (if p.1 = k then (k, v) else p) = p.1
  by_cases hp : p.1 = k
  · rw [if_pos hp, hp]
  · rw [if_neg hp]

theorem mem_keys_of_contains {m : MapSS} {k : String}
    (h : (m.map Prod.fst).contains k = true) : k ∈ m.map Prod.fst :=
  List.elem_iff.mp h

theorem mapSet_key_mem (m : MapSS) (k : String) (v : Option String) :
    k ∈ (mapSet m k v).map Prod.fst := by
  unfold mapSet
  by_cases hc : (m.map Prod.fst).contains k = true
  · rw [if_pos hc, mapSet_overwrite_keys]
    exact mem_keys_of_contains hc
  · rw [if_neg hc, List.map_append]
    simp

theorem mapSet_mem_keys_of_mem (m : MapSS) (k2 : String) (v : Option String)
    {k : String} (h : k ∈ m.map Prod.fst) :
    k ∈ (mapSet m k2 v).map Prod.fst := by
  unfold mapSet
  by_cases hc : (m.map Prod.fst).contains k2 = true
  · rw [if_pos hc, mapSet_overwrite_keys]
    exact h
  · rw [if_neg hc, List.map_append]
    exact List.mem_append_left _ h

theorem soAux_keys_superset :
    ∀ (os : List OptionItem) (idx : Nat) (m : MapSS) (k : String),
      k ∈ m.map Prod.fst → k ∈ (shuffleOptionsAux os idx m).2.map Prod.fst := by
  intro os
  induction os with
  | nil => intro idx m k h; exact h
  | cons o rest ih =>
    intro idx m k h
    exact ih (idx + 1) _ k (mapSet_mem_keys_of_mem m o.label labels[idx]? h)

theorem soAux_fst_length :
    ∀ (os : List OptionItem) (idx : Nat) (m : MapSS),
      (shuffleOptionsAux os idx m).1.length = os.length := by
  intro os
  induction os with
  | nil => intro idx m; rfl
  | cons o rest ih =>
    intro idx m
    show ((⟨labels[idx]?, o.label, o.content⟩ : MixedOption)
      :: (shuffleOptionsAux rest (idx + 1) (mapSet m o.label labels[idx]?)).1).length
      = rest.length + 1
    rw [List.length_cons, ih]

theorem soAux_fst_getElem :
    ∀ (os : List OptionItem) (idx : Nat) (m : MapSS) (i : Nat) (h : i < os.length),
      (shuffleOptionsAux os idx m).1[i]?
        = some ⟨labels[idx + i]?, (os[i]).label, (os[i]).content⟩ := by
  intro os
  induction os with
  | nil => intro idx m i h; simp at h
  | cons o rest ih =>
    intro idx m i h
    show ((⟨labels[idx]?, o.label, o.content⟩ : MixedOption)
      :: (shuffleOptionsAux rest (idx + 1) (mapSet m o.label labels[idx]?)).1)[i]?
      = _
    cases i with
    | zero => simp
    | succ i2 =>
      rw [List.getElem?_cons_succ, ih (idx + 1) _ i2 (by simpa using h)]
      have hshift : idx + 1 + i2 = idx + (i2 + 1) := by omega
      rw [hshift]
      rfl

theorem soAux_snd_get_not_mem (c : String) :
    ∀ (os : List OptionItem) (idx : Nat) (m : MapSS),
      (∀ o ∈ os, o.label ≠ c) →
      mapGet (shuffleOptionsAux os idx m).2 c = mapGet m c := by
  intro os
  induction os with
  | nil => intro idx m _; rfl
  | cons o rest ih =>
    intro idx m hno
    show mapGet (shuffleOptionsAux rest (idx + 1) (mapSet m o.label labels[idx]?)).2 c
      = mapGet m c
    rw [ih (idx + 1) _ (fun o2 h2 => hno o2 (List.mem_cons_of_mem o h2)),
      mapGet_mapSet_ne _ _ _ _ (hno o (List.mem_cons_self o rest))]

theorem soAux_snd_get_unique (c : String) :
    ∀ (os : List OptionItem) (idx : Nat) (m : MapSS),
      os.countP (fun o => o.label == c) = 1 →
      ∃ i, ∃ h : i < os.length, (os[i]).label = c ∧
        (∀ i2, ∀ h2 : i2 < os.length, (os[i2]).label = c → i2 = i) ∧
        mapGet (shuffleOptionsAux os idx m).2 c = some (labels[idx + i]?) := by
  intro os
  induction os with
  | nil => intro idx m hcount; simp at hcount
  | cons o rest ih =>
    intro idx m hcount
    rw [List.countP_cons] at hcount
    by_cases ho : (o.label == c) = true
    · rw [if_pos ho] at hcount
      have hoP : o.label = c := by simpa using ho
      have hrest : rest.countP (fun o => o.label == c) = 0 := by omega
      have hnone : ∀ o2 ∈ rest, o2.label ≠ c := by
        intro o2 h2
        have := List.countP_eq_zero.mp hrest o2 h2
        simpa using this
      refine ⟨0, by simp, by simpa using hoP, ?_, ?_⟩
      · intro i2 h2 hl2
        cases i2 with
        | zero => rfl
        | succ i3 =>
          refine absurd hl2 (hnone _ ?_)
          have h3 : i3 < rest.length := by simpa using h2
          have he : (o :: rest)[i3 + 1] = rest[i3] := by simp
          rw [he]
          exact List.getElem_mem h3
      · show mapGet (shuffleOptionsAux rest (idx + 1) (mapSet m o.label labels[idx]?)).2 c
          = some (labels[idx + 0]?)
        rw [soAux_snd_get_not_mem c rest (idx + 1) _ hnone, hoP,
          mapGet_mapSet_self]
        rfl
    · rw [if_neg ho] at hcount
      have hoN : o.label ≠ c := by simpa using ho
      have hrest : rest.countP (fun o => o.label == c) = 1 := by omega
      obtain ⟨i, hi, hlab, huniq, hget⟩ := ih (idx + 1) (mapSet m o.label labels[idx]?) hrest
      refine ⟨i + 1, by simpa using hi, by simpa using hlab, ?_, ?_⟩
      · intro i2 h2 hl2
        cases i2 with
        | zero => exact absurd (by simpa using hl2) hoN
        | succ i3 =>
          have h3 : i3 < rest.length := by simpa using h2
          have he : (o :: rest)[i3 + 1] = rest[i3] := by simp
          rw [he] at hl2
          exact congrArg (· + 1) (huniq i3 h3 hl2)
      · show mapGet (shuffleOptionsAux rest (idx + 1) (mapSet m o.label labels[idx]?)).2 c
          = some (labels[idx + (i + 1)]?)
        rw [hget]
        have hshift : idx + 1 + i = idx + (i + 1) := by omega
        rw [hshift]

theorem soAux_keys_nodup :
    ∀ (os : List OptionItem) (idx : Nat) (m : MapSS),
      ((m.map Prod.fst).Nodup) →
      (((shuffleOptionsAux os idx m).2.map Prod.fst).Nodup) := by
  intro os
  induction os with
  | nil => intro idx m h; exact h
  | cons o rest ih =>
    intro idx m h
    apply ih (idx + 1)
    unfold mapSet
    by_cases hc : (m.map Prod.fst).contains o.label = true
    · rw [if_pos hc, mapSet_overwrite_keys]
      exact h
    · rw [if_neg hc]
      rw [List.map_append]
      rw [List.nodup_append]
      refine ⟨h, by simp, ?_⟩
      intro a ha hb
      simp at hb
      subst hb
      exact hc (keys_contains_of_mem (by
        obtain ⟨p, hp, hfst⟩ := List.mem_map.mp ha
        exact ⟨p.2, by rw [← hfst]; exact hp⟩))

theorem soAux_keys_mem :
    ∀ (os : List OptionItem) (idx : Nat) (m : MapSS) (o : OptionItem),
      o ∈ os → o.label ∈ (shuffleOptionsAux os idx m).2.map Prod.fst := by
  intro os
  induction os with
  | nil => intro idx m o h; simp at h
  | cons o2 rest ih =>
    intro idx m o h
    rcases List.mem_cons.mp h with h1 | h1
    · subst h1
      show o.label ∈ (shuffleOptionsAux rest (idx + 1) (mapSet m o.label labels[idx]?)).2.map
        Prod.fst
      exact soAux_keys_superset rest (idx + 1) _ o.label
        (mapSet_key_mem m o.label labels[idx]?)
    · exact ih (idx + 1) _ o h1

theorem labels_ne_empty : ∀ s ∈ labels, s ≠ "" := by decide

theorem mixQuestion_originalNumber (q : Question) (s idx : Nat) :
    (mixQuestion q s idx).originalNumber = q.number := rfl

theorem mixQuestion_displayNumber (q : Question) (s idx : Nat) :
    (mixQuestion q s idx).displayNumber = idx + 1 := rfl

/-- When the source `correct_label` matches no option label, the lookup
returns `undefined` and `mixExam` silently falls back to the source
label. -/
theorem mixQuestion_fallback (q : Question) (s idx : Nat)
    (h : ∀ o ∈ q.options, o.label ≠ q.correct_label) :
    (mixQuestion q s idx).correctAnswer = q.correct_label := by
  show jsOr ((mapGet (shuffleOptionsAux (shuffleArray q.options s) 0 []).2
    q.correct_label).bind id) q.correct_label = q.correct_label
  rw [soAux_snd_get_not_mem q.correct_label _ 0 []
    (fun o ho => h o ((shuffleArray_perm q.options s).mem_iff.mp ho))]
  rfl

/-- With at most 6 options and a unique matching label, the relocated
correct label is the new label of the relocated correct option. -/
theorem mixQuestion_correct (q : Question) (s idx : Nat)
    (hlen : q.options.length ≤ 6)
    (huniq : q.options.countP (fun o => o.label == q.correct_label) = 1) :
    ∀ mo ∈ (mixQuestion q s idx).options,
      mo.originalLabel = q.correct_label →
      mo.label = some (mixQuestion q s idx).correctAnswer := by
  have hcount : (shuffleArray q.options s).countP
      (fun o => o.label == q.correct_label) = 1 := by
    rw [(shuffleArray_perm q.options s).countP_eq]
    exact huniq
  obtain ⟨i, hi, hlab, huni, hget⟩ :=
    soAux_snd_get_unique q.correct_label (shuffleArray q.options s) 0 [] hcount
  have hosl : (shuffleArray q.options s).length = q.options.length :=
    shuffleArray_length _ _
  have hi6 : i < labels.length := by
    have h6 : labels.length = 6 := rfl
    omega
  have hlabels : labels[i]? = some (labels[i]) := List.getElem?_eq_getElem hi6
  have hne : labels[i] ≠ "" := labels_ne_empty _ (List.getElem_mem hi6)
  have h0i : (0 : Nat) + i = i := Nat.zero_add i
  rw [h0i] at hget
  have hca : (mixQuestion q s idx).correctAnswer = labels[i] := by
    show jsOr ((mapGet (shuffleOptionsAux (shuffleArray q.options s) 0 []).2
      q.correct_label).bind id) q.correct_label = _
    rw [hget, hlabels]
    show (if labels[i] = "" then q.correct_label else labels[i])
      = labels[i]
    rw [if_neg hne]
  intro mo hmo hol
  obtain ⟨i2, hi2, hmoeq⟩ := List.mem_iff_getElem.mp hmo
  have hlen2 : (mixQuestion q s idx).options.length
      = (shuffleArray q.options s).length := soAux_fst_length _ _ _
  have hi2b : i2 < (shuffleArray q.options s).length := by omega
  have hgot := soAux_fst_getElem (shuffleArray q.options s) 0 [] i2 hi2b
  have hsome : some ((mixQuestion q s idx).options[i2])
      = some (⟨labels[0 + i2]?,
        ((shuffleArray q.options s)[i2]).label,
        ((shuffleArray q.options s)[i2]).content⟩ : MixedOption) := by
    rw [← List.getElem?_eq_getElem hi2]
    exact hgot
  have hmoval : mo = (⟨labels[0 + i2]?,
      ((shuffleArray q.options s)[i2]).label,
      ((shuffleArray q.options s)[i2]).content⟩ : MixedOption) := by
    rw [← hmoeq]
    exact Option.some.inj hsome
  have hlabeq : ((shuffleArray q.options s)[i2]).label = q.correct_label := by
    rw [hmoval] at hol
    exact hol
  have hieq : i2 = i := huni i2 hi2b hlabeq
  rw [hca, hmoval]
  show labels[0 + i2]? = some (labels[i])
  rw [Nat.zero_add, hieq, hlabels]

theorem mixQuestionsAux_length (vs : Nat) :
    ∀ (qs : List Question) (idx : Nat), (mixQuestionsAux vs qs idx).length = qs.length := by
  intro qs
  induction qs with
  | nil => intro idx; rfl
  | cons q rest ih =>
    intro idx
    show (mixQuestion q (vs + idx) idx :: mixQuestionsAux vs rest (idx + 1)).length
      = rest.length + 1
    rw [List.length_cons, ih]

theorem mixQuestionsAux_mem (vs : Nat) :
    ∀ (qs : List Question) (idx : Nat) (mq : MixedQuestion),
      mq ∈ mixQuestionsAux vs qs idx → ∃ q ∈ qs, ∃ s i, mq = mixQuestion q s i := by
  intro qs
  induction qs with
  | nil => intro idx mq h; simp [mixQuestionsAux] at h
  | cons q rest ih =>
    intro idx mq h
    rcases List.mem_cons.mp h with h1 | h1
    · exact ⟨q, List.mem_cons_self q rest, vs + idx, idx, h1⟩
    · obtain ⟨q2, hq2, s2, i2, he⟩ := ih (idx + 1) mq h1
      exact ⟨q2, List.mem_cons_of_mem q hq2, s2, i2, he⟩

theorem mixQuestionsAux_map_display (vs : Nat) :
    ∀ (qs : List Question) (idx : Nat),
      (mixQuestionsAux vs qs idx).map MixedQuestion.displayNumber
        = List.range' (idx + 1) qs.length := by
  intro qs
  induction qs with
  | nil => intro idx; rfl
  | cons q rest ih =>
    intro idx
    show (idx + 1) :: (mixQuestionsAux vs rest (idx + 1)).map MixedQuestion.displayNumber
      = List.range' (idx + 1) (rest.length + 1)
    rw [ih (idx + 1), List.range'_succ]

theorem mixVariant_questions_len (doc : ParsedDoc) (s : Nat) (c : String) :
    (mixVariant doc s c).questions.length = doc.questions.length := by
  show (mixQuestionsAux s (shuffleArray doc.questions s) 0).length = _
  rw [mixQuestionsAux_length, shuffleArray_length]

theorem mixVariant_mem (doc : ParsedDoc) (s : Nat) (c : String)
    (mq : MixedQuestion) (h : mq ∈ (mixVariant doc s c).questions) :
    ∃ q ∈ doc.questions, ∃ s2 i, mq = mixQuestion q s2 i := by
  obtain ⟨q, hq, s2, i, he⟩ := mixQuestionsAux_mem s (shuffleArray doc.questions s) 0 mq h
  exact ⟨q, (shuffleArray_perm doc.questions s).mem_iff.mp hq, s2, i, he⟩

theorem mixVariant_display (doc : ParsedDoc) (s : Nat) (c : String) :
    (mixVariant doc s c).questions.map MixedQuestion.displayNumber
      = List.range' 1 doc.questions.length := by
  show (mixQuestionsAux s (shuffleArray doc.questions s) 0).map MixedQuestion.displayNumber = _
  rw [mixQuestionsAux_map_display, shuffleArray_length]

theorem mixExamLoop_length (doc : ParsedDoc) (nowAt : Nat → Nat) (codes : List String) :
    ∀ (rem v : Nat), (mixExamLoop doc nowAt codes v rem).length = rem := by
  intro rem
  induction rem with
  | zero => intro v; rfl
  | succ r ih =>
    intro v
    show (mixVariant doc (nowAt v + v * 1000) (codes.getD v "")
      :: mixExamLoop doc nowAt codes (v + 1) r).length = r + 1
    rw [List.length_cons, ih]

theorem mixExamLoop_mem (doc : ParsedDoc) (nowAt : Nat → Nat) (codes : List String) :
    ∀ (rem v : Nat) (me : MixedExam), me ∈ mixExamLoop doc nowAt codes v rem →
      ∃ s c, me = mixVariant doc s c := by
  intro rem
  induction rem with
  | zero => intro v me h; simp [mixExamLoop] at h
  | succ r ih =>
    intro v me h
    rcases List.mem_cons.mp h with h1 | h1
    · exact ⟨nowAt v + v * 1000, codes.getD v "", h1⟩
    · exact ih (v + 1) me h1

theorem mixExamLoop_map_questions (doc : ParsedDoc) (nowAt : Nat → Nat) :
    ∀ (rem v : Nat) (codes1 codes2 : List String),
      (mixExamLoop doc nowAt codes1 v rem).map MixedExam.questions
        = (mixExamLoop doc nowAt codes2 v rem).map MixedExam.questions := by
  intro rem
  induction rem with
  | zero => intro v c1 c2; rfl
  | succ r ih =>
    intro v c1 c2
    show (mixVariant doc (nowAt v + v * 1000) (c1.getD v "")).questions
        :: (mixExamLoop doc nowAt c1 (v + 1) r).map MixedExam.questions
      = (mixVariant doc (nowAt v + v * 1000) (c2.getD v "")).questions
        :: (mixExamLoop doc nowAt c2 (v + 1) r).map MixedExam.questions
    rw [ih (v + 1) c1 c2]
    rfl

theorem mixExamLoop_map_code (doc : ParsedDoc) (nowAt : Nat → Nat) :
    ∀ (rem : Nat) (codes : List String) (v : Nat), v + rem ≤ codes.length →
      (mixExamLoop doc nowAt codes v rem).map MixedExam.examCode
        = (codes.drop v).take rem := by
  intro rem
  induction rem with
  | zero => intro codes v _; simp [mixExamLoop]
  | succ r ih =>
    intro codes v hb
    have hv : v < codes.length := by omega
    show codes.getD v ""
        :: (mixExamLoop doc nowAt codes (v + 1) r).map MixedExam.examCode
      = (codes.drop v).take (r + 1)
    rw [ih codes (v + 1) (by omega)]
    rw [List.drop_eq_getElem_cons hv]
    rw [List.take_succ_cons]
    rw [List.getD_eq_getElem codes "" hv]

theorem setAdd_nodup {l : List String} {x : String} (h : l.Nodup) :
    (setAdd l x).Nodup := by
  unfold setAdd
  by_cases hx : x ∈ l
  · rwa [if_pos hx]
  · rw [if_neg hx, List.nodup_append]
    refine ⟨h, List.nodup_singleton x, ?_⟩
    intro a ha hax
    have hax2 : a = x := by simpa using hax
    exact hx (hax2 ▸ ha)

theorem setAdd_length_le (l : List String) (x : String) :
    (setAdd l x).length ≤ l.length + 1 := by
  unfold setAdd
  by_cases hx : x ∈ l
  · rw [if_pos hx]
    omega
  · rw [if_neg hx, List.length_append]
    simp

theorem setAdd_mem {l : List String} {x y : String} (h : y ∈ setAdd l x) :
    y ∈ l ∨ y = x := by
  unfold setAdd at h
  by_cases hx : x ∈ l
  · rw [if_pos hx] at h
    exact Or.inl h
  · rw [if_neg hx] at h
    rcases List.mem_append.mp h with h1 | h1
    · exact Or.inl h1
    · exact Or.inr (by simpa using h1)

theorem genCodesLoop_some (count : Int) (rs : Nat → ℚ) :
    ∀ (fuel k : Nat) (codes res : List String), codes.Nodup →
      codes.length ≤ count.toNat →
      genCodesLoop count rs fuel k codes = some res →
      res.Nodup ∧ res.length = count.toNat := by
  intro fuel
  induction fuel with
  | zero =>
    intro k codes res hnd hle hres
    unfold genCodesLoop at hres
    by_cases hc : (codes.length : Int) < count
    · rw [if_pos hc] at hres
      exact absurd hres (by simp)
    · rw [if_neg hc] at hres
      have : codes = res := Option.some.inj hres
      subst this
      constructor
      · exact hnd
      · omega
  | succ f ih =>
    intro k codes res hnd hle hres
    unfold genCodesLoop at hres
    by_cases hc : (codes.length : Int) < count
    · rw [if_pos hc] at hres
      have hlt : codes.length < count.toNat := by omega
      exact ih (k + 1) _ res (setAdd_nodup hnd)
        (by have := setAdd_length_le codes (genExamCode (rs k)); omega) hres
    · rw [if_neg hc] at hres
      have : codes = res := Option.some.inj hres
      subst this
      constructor
      · exact hnd
      · omega

theorem generateExamCodes_some {count : Int} {rs : Nat → ℚ} {fuel : Nat}
    {res : List String} (h : generateExamCodes count rs fuel = some res) :
    res.Nodup ∧ res.length = count.toNat :=
  genCodesLoop_some count rs fuel 0 [] res List.nodup_nil (by simp) h

theorem generateExamCodes_nonpos (count : Int) (rs : Nat → ℚ) (fuel : Nat)
    (h : count ≤ 0) : generateExamCodes count rs fuel = some [] := by
  unfold generateExamCodes
  cases fuel with
  | zero =>
    unfold genCodesLoop
    rw [if_neg (by simp; omega)]
  | succ f =>
    unfold genCodesLoop
    rw [if_neg (by simp; omega)]

/-! #### Seeded-generator range lemmas -/

theorem jsLcgNext_eq_emod (x : Int) (h : 0 ≤ x) :
    jsLcgNext x = (x * 1664525 + 1013904223) % 2 ^ 32 := by
  unfold jsLcgNext
  exact Int.tmod_eq_emod (by positivity) (by positivity)

theorem jsLcgNext_nonneg (x : Int) (h : 0 ≤ x) : 0 ≤ jsLcgNext x := by
  rw [jsLcgNext_eq_emod x h]
  exact Int.emod_nonneg _ (by norm_num)

theorem jsLcgNext_lt (x : Int) (h : 0 ≤ x) : jsLcgNext x < 2 ^ 32 := by
  rw [jsLcgNext_eq_emod x h]
  exact Int.emod_lt_of_pos _ (by norm_num)

theorem jsLcgState_nonneg (seed : Int) (h : 0 ≤ seed) :
    ∀ n, 0 ≤ jsLcgState seed n := by
  intro n
  induction n with
  | zero => exact h
  | succ k ih => exact jsLcgNext_nonneg _ ih

/-! #### Exam-code range lemmas -/

theorem genExamCodeNum_lb (r : ℚ) (h0 : 0 ≤ r) : 100 ≤ genExamCodeNum r := by
  unfold genExamCodeNum
  rw [Int.le_floor]
  push_cast
  nlinarith

theorem genExamCodeNum_ub (r : ℚ) (h1 : r < 1) : genExamCodeNum r ≤ 999 := by
  unfold genExamCodeNum
  have : ⌊(100 : ℚ) + r * 900⌋ < 1000 := by
    rw [Int.floor_lt]
    push_cast
    nlinarith
  omega

theorem genExamCode_eq (r : ℚ) (h0 : 0 ≤ r) :
    genExamCode r = Nat.repr (genExamCodeNum r).toNat := by
  unfold genExamCode intToDecString
  rw [if_neg]
  have := genExamCodeNum_lb r h0
  omega

theorem decValue_repr : ∀ n : Nat, n < 1000 → decValue (Nat.repr n) = n := by decide

theorem repr_len3 : ∀ n : Nat, n < 1000 → 100 ≤ n → (Nat.repr n).length = 3 := by
  decide

theorem repr_injOn_small {a b : Nat} (ha : a < 1000) (hb : b < 1000)
    (h : Nat.repr a = Nat.repr b) : a = b := by
  have h1 := decValue_repr a ha
  have h2 := decValue_repr b hb
  rw [h] at h1
  omega

theorem card_image_repr :
    ((Finset.Icc (100 : ℕ) 999).image Nat.repr).card = 900 := by
  rw [Finset.card_image_of_injOn]
  · rw [Nat.card_Icc]
  · intro a ha b hb hab
    simp only [Finset.coe_Icc, Set.mem_Icc] at ha hb
    exact repr_injOn_small (by omega) (by omega) hab

theorem codeStrings_length : codeStrings.length = 900 := by
  unfold codeStrings
  rw [List.length_map, List.length_range]

theorem genExamCode_mem_codeStrings (r : ℚ) (h0 : 0 ≤ r) (h1 : r < 1) :
    genExamCode r ∈ codeStrings := by
  rw [genExamCode_eq r h0]
  have lb := genExamCodeNum_lb r h0
  have ub := genExamCodeNum_ub r h1
  refine List.mem_map.mpr ⟨(genExamCodeNum r).toNat - 100,
    List.mem_range.mpr (by omega), ?_⟩
  congr 1
  omega

theorem nodup_length_le_of_subset {l1 l2 : List String} (h1 : l1.Nodup)
    (h2 : ∀ x ∈ l1, x ∈ l2) : l1.length ≤ l2.length := by
  have e1 : l1.toFinset.card = l1.length := List.toFinset_card_of_nodup h1
  have e2 : l1.toFinset ⊆ l2.toFinset := by
    intro x hx
    exact List.mem_toFinset.mpr (h2 x (List.mem_toFinset.mp hx))
  have e3 := Finset.card_le_card e2
  have e4 := l2.toFinset_card_le
  omega

theorem genCodesLoop_none (rs : Nat → ℚ) (hr : ∀ k, 0 ≤ rs k ∧ rs k < 1)
    (count : Int) (hcount : 900 < count) :
    ∀ (fuel k : Nat) (codes : List String), codes.Nodup →
      (∀ x ∈ codes, x ∈ codeStrings) →
      genCodesLoop count rs fuel k codes = none := by
  intro fuel
  induction fuel with
  | zero =>
    intro k codes hnd hsub
    unfold genCodesLoop
    rw [if_pos]
    have := nodup_length_le_of_subset hnd hsub
    rw [codeStrings_length] at this
    omega
  | succ f ih =>
    intro k codes hnd hsub
    unfold genCodesLoop
    rw [if_pos]
    · apply ih (k + 1) _ (setAdd_nodup hnd)
      intro x hx
      rcases setAdd_mem hx with h1 | h1
      · exact hsub x h1
      · rw [h1]
        exact genExamCode_mem_codeStrings (rs k) (hr k).1 (hr k).2
    · have := nodup_length_le_of_subset hnd hsub
      rw [codeStrings_length] at this
      omega

theorem generateExamCodes_none (rs : Nat → ℚ) (hr : ∀ k, 0 ≤ rs k ∧ rs k < 1)
    (count : Int) (hcount : 900 < count) (fuel : Nat) :
    generateExamCodes count rs fuel = none :=
  genCodesLoop_none rs hr count hcount fuel 0 [] List.nodup_nil (by simp)

/-! #### Answer-key lemmas -/

theorem answerKeyTable_length (exams : List MixedExam) (answers : List String) :
    (answerKeyTable exams answers).length = answerKeyNumQuestions exams := by
  unfold answerKeyTable
  rw [List.length_map, List.length_range]

theorem answerKeyCell_of_unique {e : MixedExam} {qn : Nat} {mq : MixedQuestion}
    (hmem : mq ∈ e.questions) (hd : mq.displayNumber = qn)
    (huniq : ∀ mq2 ∈ e.questions, mq2.displayNumber = qn → mq2 = mq) :
    answerKeyCell e qn = orDash (some mq.correctAnswer) := by
  unfold answerKeyCell
  cases hf : e.questions.find? (fun q => q.displayNumber == qn) with
  | none =>
    have := List.find?_eq_none.mp hf mq hmem
    exact absurd (by simpa using hd) this
  | some mq2 =>
    have h1 : mq2.displayNumber = qn := by simpa using List.find?_some hf
    have h2 : mq2 ∈ e.questions := List.mem_of_find?_eq_some hf
    rw [huniq mq2 h2 h1]
    rfl

/-! #### Concrete evaluation helpers

The rational arithmetic of `Math.floor(100 + r * 900)` is evaluated
once by `norm_num`; everything after it is rational-free and reduces in
the kernel. -/

theorem genExamCode_zero : genExamCode 0 = "100" := by
  have h : genExamCodeNum 0 = 100 := by
    unfold genExamCodeNum
    norm_num
  unfold genExamCode
  rw [h]
  rfl

theorem genExamCode_half : genExamCode (1 / 2) = "550" := by
  have h : genExamCodeNum (1 / 2) = 550 := by
    unfold genExamCodeNum
    norm_num
  unfold genExamCode
  rw [h]
  rfl

theorem genCodes_zero : generateExamCodes 1 (fun _ => 0) 1 = some ["100"] := by
  show genCodesLoop 1 (fun _ => 0) 1 0 [] = some ["100"]
  unfold genCodesLoop
  rw [if_pos (by norm_num)]
  have h : setAdd [] (genExamCode ((fun _ => (0 : ℚ)) 0)) = ["100"] := by
    show setAdd [] (genExamCode 0) = ["100"]
    rw [genExamCode_zero]
    rfl
  rw [h]
  rfl

theorem genCodes_half :
    generateExamCodes 1 (fun _ => (1 : ℚ) / 2) 1 = some ["550"] := by
  show genCodesLoop 1 (fun _ => (1 : ℚ) / 2) 1 0 [] = some ["550"]
  unfold genCodesLoop
  rw [if_pos (by norm_num)]
  have h : setAdd [] (genExamCode ((fun _ => (1 : ℚ) / 2) 0)) = ["550"] := by
    show setAdd [] (genExamCode (1 / 2)) = ["550"]
    rw [genExamCode_half]
    rfl
  rw [h]
  rfl

theorem mixExam_eval_zero (doc : ParsedDoc) (nowAt : Nat → Nat) :
    mixExam doc 1 nowAt (fun _ => 0) 1
      = some [mixVariant doc (nowAt 0) "100"] := by
  unfold mixExam
  rw [genCodes_zero]
  rfl

theorem mixExam_eval_half (doc : ParsedDoc) (nowAt : Nat → Nat) :
    mixExam doc 1 nowAt (fun _ => (1 : ℚ) / 2) 1
      = some [mixVariant doc (nowAt 0) "550"] := by
  unfold mixExam
  rw [genCodes_half]
  rfl

/-! ### Claim theorems -/

/-- Claim C8 (amended): for every nonnegative integer seed, the Seeded
Generator transition is `state = (state * 1664525 + 1013904223) mod 2^32`
(the mathematical modulus) and every value `next()` returns, each equal
to `state / 2^32`, lies in `[0, 1)`.  For sufficiently negative seeds the
JavaScript truncating remainder leaves the state negative and the first
returned value is below 0, so the claim is restricted to nonnegative
seeds. -/
theorem seededRandom_lcg_contract (seed : Int) (hseed : 0 ≤ seed) (n : Nat) :
    jsLcgState seed (n + 1)
      = (jsLcgState seed n * 1664525 + 1013904223) % 2 ^ 32 ∧
    0 ≤ seededRandomVal seed n ∧ seededRandomVal seed n < 1 := by
  have hst : 0 ≤ jsLcgState seed n := jsLcgState_nonneg seed hseed n
  refine ⟨jsLcgNext_eq_emod _ hst, ?_, ?_⟩
  · unfold seededRandomVal
    apply div_nonneg
    · exact_mod_cast jsLcgState_nonneg seed hseed (n + 1)
    · positivity
  · unfold seededRandomVal
    rw [div_lt_one (by positivity)]
    have h2 : jsLcgState seed (n + 1) < 2 ^ 32 := jsLcgNext_lt _ hst
    exact_mod_cast h2

/-- Witness for the C8 theorem at seed 5, first drawn value. -/
theorem seededRandom_lcg_contract_witness :
    jsLcgState 5 1 = (jsLcgState 5 0 * 1664525 + 1013904223) % 2 ^ 32 ∧
    0 ≤ seededRandomVal 5 0 ∧ seededRandomVal 5 0 < 1 :=
  seededRandom_lcg_contract 5 (by norm_num) 0

/-- Counterexample to claim C8 as stated: at the integer seed `-1000`
the first value returned by `seededRandom` is negative (hence outside
`[0, 1)`), and the transition differs from the mathematical
`mod 2^32`. -/
theorem seededRandom_negative_seed_cex :
    seededRandomVal (-1000) 0 < 0 ∧
    jsLcgState (-1000) 1 ≠ ((-1000) * 1664525 + 1013904223) % 2 ^ 32 := by
  constructor
  · have h1 : jsLcgState (-1000) 1 = -650620777 := by decide
    show ((jsLcgState (-1000) 1 : Int) : ℚ) / 2 ^ 32 < 0
    rw [h1]
    norm_num
  · decide

/-- Claim C3 (amended): for every nonnegative integer seed,
`shuffleArray` returns a permutation of its input (same multiset, no
element added, lost or duplicated), and for inputs of length 0 or 1 the
output equals the input for every integer seed.  For sufficiently
negative seeds the draw `j` is negative, JavaScript reads `undefined`
from `shuffled[j]`, and the output both loses an element and contains
`undefined`, so the permutation part is restricted to nonnegative
seeds. -/
theorem shuffleArray_permutation (l : List α) (seed : Int) :
    (0 ≤ seed → (shuffleArrayJS l seed).Perm (l.map some)) ∧
    (l.length ≤ 1 → shuffleArrayJS l seed = l.map some) := by
  constructor
  · intro h
    obtain ⟨s, rfl⟩ : ∃ s : Nat, seed = (s : Int) := ⟨seed.toNat, by omega⟩
    rw [shuffleArrayJS_coe]
    exact (shuffleArray_perm l s).map some
  · exact shuffleArrayJS_short l seed

/-- Witness for the C3 theorem: a 3-element list at seed 7 is permuted,
a 1-element list is fixed even at a negative seed. -/
theorem shuffleArray_permutation_witness :
    (shuffleArrayJS ["a", "b", "c"] 7).Perm (["a", "b", "c"].map some) ∧
    shuffleArrayJS ["x"] (-5) = ["x"].map some :=
  ⟨(shuffleArray_permutation ["a", "b", "c"] 7).1 (by norm_num),
   (shuffleArray_permutation ["x"] (-5)).2 (by norm_num)⟩

/-- Counterexample to claim C3 as stated: at the integer seed `-1000`
the two-element array `["x", "y"]` shuffles to `[x, undefined]` — the
element `y` is lost, so the output is not a permutation of the input. -/
theorem shuffleArray_negative_seed_cex :
    shuffleArrayJS ["x", "y"] (-1000) = [some "x", none] ∧
    ¬(shuffleArrayJS ["x", "y"] (-1000)).Perm (["x", "y"].map some) := by
  constructor
  · decide
  · decide

/-- Claim C4 (amended): `mixExam` performs no input validation: for
every `ParsedDoc` and every variant count `V ≤ 0` it returns normally
with an empty variant list (zero `MixedExam` produced), raising no
error of any kind. -/
theorem mixExam_nonpos_variants (doc : ParsedDoc) (V : Int) (nowAt : Nat → Nat)
    (rs : Nat → ℚ) (fuel : Nat) (h : V ≤ 0) :
    mixExam doc V nowAt rs fuel = some [] := by
  unfold mixExam
  rw [generateExamCodes_nonpos V rs fuel h]
  have hV : V.toNat = 0 := by omega
  rw [hV]
  rfl

/-- Witness for the C4 theorem at `V = -3`. -/
theorem mixExam_nonpos_variants_witness :
    mixExam cexDocBad (-3) (fun _ => 0) (fun _ => 0) 2 = some [] :=
  mixExam_nonpos_variants cexDocBad (-3) (fun _ => 0) (fun _ => 0) 2 (by norm_num)

/-- Counterexample to claim C4 as stated: at `V = 0` (and `V = -1`)
`mixExam` does not reject the request with an `InvalidInput` failure —
it returns normally (with an empty list); no error path exists in the
code. -/
theorem mixExam_zero_variants_cex :
    mixExam cexDocBad 0 (fun _ => 0) (fun _ => 0) 0 = some [] ∧
    mixExam cexDocBad (-1) (fun _ => 0) (fun _ => 0) 0 = some [] := by
  constructor
  · rfl
  · rfl

/-- Claim C7 (amended): the Seeded Generator is not the only source of
randomness in `mixExam` — seeds come from `Date.now()` and exam codes
from `Math.random()`, so two runs at different wall-clock times differ.
What does hold: the `Math.random()` stream affects only the exam codes;
for a fixed document, variant count and `Date.now()` stream, the
questions of every variant are identical across runs. -/
theorem mixExam_questions_deterministic (doc : ParsedDoc) (V : Int)
    (nowAt : Nat → Nat) (rs1 rs2 : Nat → ℚ) (fuel1 fuel2 : Nat)
    (out1 out2 : List MixedExam)
    (h1 : mixExam doc V nowAt rs1 fuel1 = some out1)
    (h2 : mixExam doc V nowAt rs2 fuel2 = some out2) :
    out1.map MixedExam.questions = out2.map MixedExam.questions := by
  unfold mixExam at h1 h2
  cases hg1 : generateExamCodes V rs1 fuel1 with
  | none =>
    rw [hg1] at h1
    exact absurd h1 (by simp)
  | some c1 =>
    cases hg2 : generateExamCodes V rs2 fuel2 with
    | none =>
      rw [hg2] at h2
      exact absurd h2 (by simp)
    | some c2 =>
      rw [hg1] at h1
      rw [hg2] at h2
      have e1 : mixExamLoop doc nowAt c1 0 V.toNat = out1 := Option.some.inj h1
      have e2 : mixExamLoop doc nowAt c2 0 V.toNat = out2 := Option.some.inj h2
      rw [← e1, ← e2]
      exact mixExamLoop_map_questions doc nowAt V.toNat 0 c1 c2

/-- Witness for the C7 theorem: same document, variant count and clock,
two different `Math.random()` streams — the variants get different exam
codes but identical questions. -/
theorem mixExam_questions_deterministic_witness :
    ∃ out1 out2,
      mixExam cexDoc2 1 (fun _ => 0) (fun _ => 0) 1 = some out1 ∧
      mixExam cexDoc2 1 (fun _ => 0) (fun _ => (1 : ℚ) / 2) 1 = some out2 ∧
      out1.map MixedExam.questions = out2.map MixedExam.questions :=
  ⟨[mixVariant cexDoc2 0 "100"], [mixVariant cexDoc2 0 "550"],
    mixExam_eval_zero cexDoc2 (fun _ => 0),
    mixExam_eval_half cexDoc2 (fun _ => 0),
    mixExam_questions_deterministic cexDoc2 1 (fun _ => 0) _ _ 1 1 _ _
      (mixExam_eval_zero cexDoc2 (fun _ => 0))
      (mixExam_eval_half cexDoc2 (fun _ => 0))⟩

/-- Counterexample to claim C7 as stated: with the same `ParsedDoc`,
variant count and `Math.random()` stream, two runs whose `Date.now()`
values differ (0 versus 1000) produce different `MixedExam` output —
the run consults the wall clock, not only the Seeded Generator. -/
theorem mixExam_wall_clock_cex :
    mixExam cexDoc2 1 (fun _ => 0) (fun _ => 0) 1
      ≠ mixExam cexDoc2 1 (fun _ => 1000) (fun _ => 0) 1 := by
  rw [mixExam_eval_zero, mixExam_eval_zero]
  decide

/-- Claim C9: `generateExamCodes`, whenever it returns, yields exactly
the requested number of pairwise-distinct codes, and the exam codes
assigned to the variants of one `mixExam` run are pairwise distinct. -/
theorem examCodes_distinct :
    (∀ (count : Int) (rs : Nat → ℚ) (fuel : Nat) (codes : List String),
      generateExamCodes count rs fuel = some codes →
      codes.Nodup ∧ codes.length = count.toNat) ∧
    (∀ (doc : ParsedDoc) (V : Int) (nowAt : Nat → Nat) (rs : Nat → ℚ)
      (fuel : Nat) (out : List MixedExam),
      mixExam doc V nowAt rs fuel = some out →
      (out.map MixedExam.examCode).Nodup) := by
  constructor
  · intro count rs fuel codes h
    exact generateExamCodes_some h
  · intro doc V nowAt rs fuel out h
    unfold mixExam at h
    cases hg : generateExamCodes V rs fuel with
    | none =>
      rw [hg] at h
      exact absurd h (by simp)
    | some codes =>
      rw [hg] at h
      have e1 : mixExamLoop doc nowAt codes 0 V.toNat = out := Option.some.inj h
      obtain ⟨hnd, hlen⟩ := generateExamCodes_some hg
      rw [← e1, mixExamLoop_map_code doc nowAt V.toNat codes 0 (by omega)]
      rw [List.drop_zero]
      exact hnd.sublist (List.take_sublist _ _)

/-- Witness for the C9 theorem at a run producing one variant. -/
theorem examCodes_distinct_witness :
    ((["100"] : List String).Nodup ∧ (["100"] : List String).length = (1 : Int).toNat) ∧
    ([mixVariant cexDoc2 0 "100"].map MixedExam.examCode).Nodup :=
  ⟨examCodes_distinct.1 1 (fun _ => 0) 1 ["100"] genCodes_zero,
   examCodes_distinct.2 cexDoc2 1 (fun _ => 0) (fun _ => 0) 1
     [mixVariant cexDoc2 0 "100"] (mixExam_eval_zero cexDoc2 (fun _ => 0))⟩

/-- Claim C1 (amended): no `DataIntegrityError` exists in the code and
the run never aborts.  Whenever exam-code generation terminates,
`mixExam` emits exactly `max(V, 0)` variants, and a question whose
`correct_label` matches none of its own options' labels silently keeps
the source `correct_label` as its `correctAnswer` (the
`mapping.get(...) || q.correct_label` fallback). -/
theorem mixExam_no_integrity_error (doc : ParsedDoc) (V : Int) (nowAt : Nat → Nat)
    (rs : Nat → ℚ) (fuel : Nat) (out : List MixedExam)
    (h : mixExam doc V nowAt rs fuel = some out) :
    out.length = V.toNat ∧
    ∀ me ∈ out, ∀ mq ∈ me.questions, ∃ q ∈ doc.questions,
      mq.originalNumber = q.number ∧
      ((∀ o ∈ q.options, o.label ≠ q.correct_label) →
        mq.correctAnswer = q.correct_label) := by
  unfold mixExam at h
  cases hg : generateExamCodes V rs fuel with
  | none =>
    rw [hg] at h
    exact absurd h (by simp)
  | some codes =>
    rw [hg] at h
    have e1 : mixExamLoop doc nowAt codes 0 V.toNat = out := Option.some.inj h
    constructor
    · rw [← e1, mixExamLoop_length]
    · intro me hme mq hmq
      rw [← e1] at hme
      obtain ⟨s, c, hmev⟩ := mixExamLoop_mem doc nowAt codes V.toNat 0 me hme
      subst hmev
      obtain ⟨q, hq, s2, i, hmqv⟩ := mixVariant_mem doc s c mq hmq
      subst hmqv
      exact ⟨q, hq, mixQuestion_originalNumber q s2 i,
        fun hno => mixQuestion_fallback q s2 i hno⟩

/-- Witness for the C1 theorem on a document whose only question has an
unmatched correct label. -/
theorem mixExam_no_integrity_error_witness :
    [mixVariant cexDocBad 0 "100"].length = (1 : Int).toNat ∧
    ∀ me ∈ [mixVariant cexDocBad 0 "100"], ∀ mq ∈ me.questions,
      ∃ q ∈ cexDocBad.questions, mq.originalNumber = q.number ∧
        ((∀ o ∈ q.options, o.label ≠ q.correct_label) →
          mq.correctAnswer = q.correct_label) :=
  mixExam_no_integrity_error cexDocBad 1 (fun _ => 0) (fun _ => 0) 1 _
    (mixExam_eval_zero cexDocBad (fun _ => 0))

/-- Counterexample to claim C1 as stated: on a document whose question
has `correct_label = "Z"` matching no option, `mixExam` emits one full
variant (not zero) whose `correctAnswer` is the unmapped label `"Z"` —
no `DataIntegrityError` is raised and the run does not abort. -/
theorem mixExam_unmatched_label_cex :
    mixExam cexDocBad 1 (fun _ => 0) (fun _ => 0) 1
      = some [mixVariant cexDocBad 0 "100"] ∧
    [mixVariant cexDocBad 0 "100"].length = 1 ∧
    ∀ me ∈ [mixVariant cexDocBad 0 "100"], ∀ mq ∈ me.questions,
      mq.correctAnswer = "Z" := by
  refine ⟨mixExam_eval_zero cexDocBad (fun _ => 0), rfl, ?_⟩
  decide

/-- Claim C5 (amended): for every `ParsedDoc` in which each question's
`correct_label` equals exactly one of its own options' labels and each
question has at most 6 options, every `MixedQuestion`'s `correctAnswer`
equals the newly assigned label of the `MixedOption` whose
`originalLabel` equals the source `correct_label`.  The bound on the
option count is forced: with 7 or more options the relocated correct
option can receive the `undefined` label while `correctAnswer` silently
falls back to the source label. -/
theorem mixExam_correct_answer_mapped (doc : ParsedDoc) (V : Int)
    (nowAt : Nat → Nat) (rs : Nat → ℚ) (fuel : Nat) (out : List MixedExam)
    (hdoc : ∀ q ∈ doc.questions, q.options.length ≤ 6 ∧
      q.options.countP (fun o => o.label == q.correct_label) = 1)
    (h : mixExam doc V nowAt rs fuel = some out) :
    ∀ me ∈ out, ∀ mq ∈ me.questions, ∃ q ∈ doc.questions,
      mq.originalNumber = q.number ∧
      ∀ mo ∈ mq.options, mo.originalLabel = q.correct_label →
        mo.label = some mq.correctAnswer := by
  unfold mixExam at h
  cases hg : generateExamCodes V rs fuel with
  | none =>
    rw [hg] at h
    exact absurd h (by simp)
  | some codes =>
    rw [hg] at h
    have e1 : mixExamLoop doc nowAt codes 0 V.toNat = out := Option.some.inj h
    intro me hme mq hmq
    rw [← e1] at hme
    obtain ⟨s, c, hmev⟩ := mixExamLoop_mem doc nowAt codes V.toNat 0 me hme
    subst hmev
    obtain ⟨q, hq, s2, i, hmqv⟩ := mixVariant_mem doc s c mq hmq
    subst hmqv
    exact ⟨q, hq, mixQuestion_originalNumber q s2 i,
      mixQuestion_correct q s2 i (hdoc q hq).1 (hdoc q hq).2⟩

/-- Witness for the C5 theorem on a two-question document with two
options per question. -/
theorem mixExam_correct_answer_mapped_witness :
    mixExam cexDoc2 1 (fun _ => 0) (fun _ => 0) 1
      = some [mixVariant cexDoc2 0 "100"] ∧
    ∀ me ∈ [mixVariant cexDoc2 0 "100"], ∀ mq ∈ me.questions,
      ∃ q ∈ cexDoc2.questions, mq.originalNumber = q.number ∧
        ∀ mo ∈ mq.options, mo.originalLabel = q.correct_label →
          mo.label = some mq.correctAnswer :=
  ⟨mixExam_eval_zero cexDoc2 (fun _ => 0),
   mixExam_correct_answer_mapped cexDoc2 1 (fun _ => 0) (fun _ => 0) 1 _
     (by decide) (mixExam_eval_zero cexDoc2 (fun _ => 0))⟩

/-- Counterexample to claim C5 as stated: the 7-option document
satisfies the claim's hypothesis (the correct label `"B"` matches
exactly one option), yet in the variant produced at clock value 0 the
option with `originalLabel = "B"` lands at position 7 and receives the
`undefined` label, while `correctAnswer` falls back to `"B"` — the
relocated label does not equal `correctAnswer`. -/
theorem mixExam_seven_options_cex :
    (∀ q ∈ cexDoc7.questions,
      q.options.countP (fun o => o.label == q.correct_label) = 1) ∧
    mixExam cexDoc7 1 (fun _ => 0) (fun _ => 0) 1
      = some [mixVariant cexDoc7 0 "100"] ∧
    ∃ mq ∈ (mixVariant cexDoc7 0 "100").questions,
      ∃ mo ∈ mq.options, mo.originalLabel = "B" ∧ mo.label = none ∧
        mo.label ≠ some mq.correctAnswer := by
  refine ⟨by decide, mixExam_eval_zero cexDoc7 (fun _ => 0), ?_⟩
  decide

/-- Claim C6 (amended): `shuffleOptions` raises no `AlphabetExceeded`
error for any option count.  For at most 6 options every option
receives a (defined) label; for 7 or more, options past the alphabet
receive the JavaScript `undefined` label.  In all cases every original
label appears exactly once as a mapping key (the key list is
duplicate-free and contains every option's label). -/
theorem shuffleOptions_labels (options : List OptionItem) (seed : Nat) :
    (options.length ≤ 6 →
      ∀ mo ∈ (shuffleOptions options seed).1, ∃ L, mo.label = some L) ∧
    ((shuffleOptions options seed).2.map Prod.fst).Nodup ∧
    (∀ o ∈ options, o.label ∈ (shuffleOptions options seed).2.map Prod.fst) := by
  refine ⟨?_, ?_, ?_⟩
  · intro hlen mo hmo
    obtain ⟨i, hi, hmoeq⟩ := List.mem_iff_getElem.mp hmo
    have hlen2 : (shuffleOptions options seed).1.length
        = (shuffleArray options seed).length := soAux_fst_length _ _ _
    have hosl : (shuffleArray options seed).length = options.length :=
      shuffleArray_length _ _
    have hib : i < (shuffleArray options seed).length := by omega
    have hgot := soAux_fst_getElem (shuffleArray options seed) 0 [] i hib
    have hsome : some ((shuffleOptions options seed).1[i])
        = some (⟨labels[0 + i]?,
          ((shuffleArray options seed)[i]).label,
          ((shuffleArray options seed)[i]).content⟩ : MixedOption) := by
      rw [← List.getElem?_eq_getElem hi]
      exact hgot
    have hmoval := Option.some.inj hsome
    have hi6 : 0 + i < labels.length := by
      have h6 : labels.length = 6 := rfl
      omega
    refine ⟨labels[0 + i], ?_⟩
    rw [← hmoeq, hmoval]
    show labels[0 + i]? = some (labels[0 + i])
    exact List.getElem?_eq_getElem hi6
  · exact soAux_keys_nodup (shuffleArray options seed) 0 [] (by simp)
  · intro o ho
    exact soAux_keys_mem (shuffleArray options seed) 0 [] o
      ((shuffleArray_perm options seed).mem_iff.mpr ho)

/-- Witness for the C6 theorem on two options at seed 0. -/
theorem shuffleOptions_labels_witness :
    (∀ mo ∈ (shuffleOptions cexOptions2 0).1, ∃ L, mo.label = some L) ∧
    ((shuffleOptions cexOptions2 0).2.map Prod.fst).Nodup ∧
    (∀ o ∈ cexOptions2, o.label ∈ (shuffleOptions cexOptions2 0).2.map Prod.fst) :=
  ⟨(shuffleOptions_labels cexOptions2 0).1 (by decide),
   (shuffleOptions_labels cexOptions2 0).2.1,
   (shuffleOptions_labels cexOptions2 0).2.2⟩

/-- Counterexample to claim C6 as stated: with 7 options (exceeding the
A-F alphabet) `shuffleOptions` does not fail with `AlphabetExceeded` —
it returns a full 7-element result in which some option's new label is
the JavaScript `undefined` value. -/
theorem shuffleOptions_seven_cex :
    (shuffleOptions cexOptions7 0).1.length = 7 ∧
    ∃ mo ∈ (shuffleOptions cexOptions7 0).1, mo.label = none := by
  constructor
  · decide
  · decide

/-- Claim C2 (amended): for variants produced by `mixExam` (with
`V ≥ 1`), the answer-key table has exactly `|doc.questions|` rows; each
row's cells are one per variant in variant order, and the cell for row
number `q` and variant `e` contains the `correctAnswer` of the unique
`MixedQuestion` of `e` whose `displayNumber` (not `originalNumber`)
equals `q`, found by a linear `find?`; no index on `originalNumber` and
no `IncompleteVariantError` exist in the code — a failed lookup renders
`"-"` instead. -/
theorem answerKeyTable_by_display (doc : ParsedDoc) (V : Int)
    (nowAt : Nat → Nat) (rs : Nat → ℚ) (fuel : Nat) (out : List MixedExam)
    (answers : List String)
    (h : mixExam doc V nowAt rs fuel = some out) (hV : 0 < V) :
    (answerKeyTable out answers).length = doc.questions.length ∧
    ∀ row ∈ answerKeyTable out answers,
      row.cells = out.map (fun e => answerKeyCell e row.questionNumber) ∧
      ∀ e ∈ out, ∃ mq ∈ e.questions,
        mq.displayNumber = row.questionNumber ∧
        answerKeyCell e row.questionNumber = orDash (some mq.correctAnswer) ∧
        ∀ mq2 ∈ e.questions, mq2.displayNumber = row.questionNumber → mq2 = mq := by
  have hmem : ∀ e ∈ out, ∃ s c, e = mixVariant doc s c := by
    intro e he
    unfold mixExam at h
    cases hg : generateExamCodes V rs fuel with
    | none =>
      rw [hg] at h
      exact absurd h (by simp)
    | some codes =>
      rw [hg] at h
      have e1 : mixExamLoop doc nowAt codes 0 V.toNat = out := Option.some.inj h
      rw [← e1] at he
      exact mixExamLoop_mem doc nowAt codes V.toNat 0 e he
  have hlen : out.length = V.toNat := by
    unfold mixExam at h
    cases hg : generateExamCodes V rs fuel with
    | none =>
      rw [hg] at h
      exact absurd h (by simp)
    | some codes =>
      rw [hg] at h
      have e1 : mixExamLoop doc nowAt codes 0 V.toNat = out := Option.some.inj h
      rw [← e1, mixExamLoop_length]
  have hql : ∀ e ∈ out, e.questions.length = doc.questions.length := by
    intro e he
    obtain ⟨s, c, rfl⟩ := hmem e he
    exact mixVariant_questions_len doc s c
  have hnum : answerKeyNumQuestions out = doc.questions.length := by
    cases hout : out with
    | nil =>
      rw [hout] at hlen
      simp at hlen
      omega
    | cons e0 rest =>
      show e0.questions.length = doc.questions.length
      exact hql e0 (by rw [hout]; exact List.mem_cons_self e0 rest)
  constructor
  · rw [answerKeyTable_length, hnum]
  · intro row hrow
    unfold answerKeyTable at hrow
    obtain ⟨idx, hidx, hroweq⟩ := List.mem_map.mp hrow
    have hidxlt : idx < answerKeyNumQuestions out := List.mem_range.mp hidx
    constructor
    · rw [← hroweq]
    · intro e he
      obtain ⟨s, c, rfl⟩ := hmem e he
      have hdisp : (mixVariant doc s c).questions.map MixedQuestion.displayNumber
          = List.range' 1 doc.questions.length := mixVariant_display doc s c
      have hrange : idx + 1 ∈ List.range' 1 doc.questions.length := by
        rw [List.mem_range'_1]
        omega
      have hmemd : idx + 1 ∈ (mixVariant doc s c).questions.map
          MixedQuestion.displayNumber := by
        rw [hdisp]
        exact hrange
      obtain ⟨mq, hmq, hmqd⟩ := List.mem_map.mp hmemd
      have hnd : ((mixVariant doc s c).questions.map
          MixedQuestion.displayNumber).Nodup := by
        rw [hdisp]
        exact List.nodup_range' 1 doc.questions.length
      have huniq : ∀ mq2 ∈ (mixVariant doc s c).questions,
          mq2.displayNumber = idx + 1 → mq2 = mq := by
        intro mq2 hmq2 hd2
        exact List.inj_on_of_nodup_map hnd hmq2 hmq (by rw [hd2, hmqd])
      have hqn : row.questionNumber = idx + 1 := by rw [← hroweq]
      rw [hqn]
      exact ⟨mq, hmq, hmqd, answerKeyCell_of_unique hmq hmqd huniq, huniq⟩

/-- Witness for the C2 theorem on a run with one variant over the
two-question document. -/
theorem answerKeyTable_by_display_witness :
    (answerKeyTable [mixVariant cexDoc2 0 "100"] ["A", "B"]).length
      = cexDoc2.questions.length ∧
    ∀ row ∈ answerKeyTable [mixVariant cexDoc2 0 "100"] ["A", "B"],
      row.cells = [mixVariant cexDoc2 0 "100"].map
        (fun e => answerKeyCell e row.questionNumber) ∧
      ∀ e ∈ [mixVariant cexDoc2 0 "100"], ∃ mq ∈ e.questions,
        mq.displayNumber = row.questionNumber ∧
        answerKeyCell e row.questionNumber = orDash (some mq.correctAnswer) ∧
        ∀ mq2 ∈ e.questions, mq2.displayNumber = row.questionNumber → mq2 = mq :=
  answerKeyTable_by_display cexDoc2 1 (fun _ => 0) (fun _ => 0) 1 _ ["A", "B"]
    (mixExam_eval_zero cexDoc2 (fun _ => 0)) (by norm_num)

/-- Counterexample to claim C2 as stated: in a variant whose display
position 1 shows source question 2 (`correctAnswer "A"`) while source
question 1 relocated to position 2 (`correctAnswer "B"`), the cell in
row 1 contains `"A"` — the answer of the question *displayed* first —
and not `"B"`, the relocated correct label of the `MixedQuestion` whose
`originalNumber` is 1.  The lookup is keyed on `displayNumber`, not on
`originalNumber`. -/
theorem answerKeyTable_original_number_cex :
    answerKeyCell cexExamKey 1 = "A" ∧
    ((cexExamKey.questions.find? fun q => q.originalNumber == 1).map
      MixedQuestion.correctAnswer) = some "B" ∧
    (answerKeyTable [cexExamKey] ["B", "A"]).map AnswerKeyRow.cells
      = [["A"], ["B"]] := by
  refine ⟨by decide, by decide, by decide⟩

/-- Claim C10: every generated exam code is the decimal string of an
integer in `[100, 999]` (exactly three digits); the code space has
exactly 900 distinct codes, and `generateExamCodes` cannot terminate
when asked for more than 900 unique codes (for any fuel and any
`Math.random()` stream with values in `[0, 1)`). -/
theorem examCode_three_digits :
    (∀ r : ℚ, 0 ≤ r → r < 1 →
      ∃ n : Nat, genExamCode r = Nat.repr n ∧ 100 ≤ n ∧ n ≤ 999 ∧
        (Nat.repr n).length = 3) ∧
    (∀ n : Int, 100 ≤ n → n ≤ 999 →
      ∃ r : ℚ, 0 ≤ r ∧ r < 1 ∧ genExamCodeNum r = n) ∧
    ((Finset.Icc (100 : ℕ) 999).card = 900 ∧
      ((Finset.Icc (100 : ℕ) 999).image Nat.repr).card = 900) ∧
    (∀ rs : Nat → ℚ, (∀ k, 0 ≤ rs k ∧ rs k < 1) →
      ∀ count : Int, 900 < count → ∀ fuel,
        generateExamCodes count rs fuel = none) := by
  refine ⟨?_, ?_, ⟨?_, card_image_repr⟩, ?_⟩
  · intro r h0 h1
    have lb := genExamCodeNum_lb r h0
    have ub := genExamCodeNum_ub r h1
    exact ⟨(genExamCodeNum r).toNat, genExamCode_eq r h0, by omega, by omega,
      repr_len3 _ (by omega) (by omega)⟩
  · intro n h100 h999
    have hn : (100 : ℚ) ≤ (n : ℚ) := by exact_mod_cast h100
    have hn2 : (n : ℚ) ≤ 999 := by exact_mod_cast h999
    refine ⟨((n : ℚ) - 100) / 900, ?_, ?_, ?_⟩
    · apply div_nonneg
      · linarith
      · norm_num
    · rw [div_lt_one (by norm_num)]
      linarith
    · unfold genExamCodeNum
      have he : (100 : ℚ) + ((n : ℚ) - 100) / 900 * 900 = (n : ℚ) := by
        rw [div_mul_cancel₀ _ (by norm_num : (900 : ℚ) ≠ 0)]
        ring
      rw [he, Int.floor_intCast]
  · rw [Nat.card_Icc]
  · intro rs hr count hcount fuel
    exact generateExamCodes_none rs hr count hcount fuel

/-- Witness for the C10 theorem: the draw 0 yields code `"100"`, the
value 550 is reachable, and requesting 901 codes never terminates. -/
theorem examCode_three_digits_witness :
    (∃ n : Nat, genExamCode 0 = Nat.repr n ∧ 100 ≤ n ∧ n ≤ 999 ∧
      (Nat.repr n).length = 3) ∧
    (∃ r : ℚ, 0 ≤ r ∧ r < 1 ∧ genExamCodeNum r = 550) ∧
    generateExamCodes 901 (fun _ => 0) 5 = none :=
  ⟨examCode_three_digits.1 0 (by norm_num) (by norm_num),
   examCode_three_digits.2.1 550 (by norm_num) (by norm_num),
   examCode_three_digits.2.2.2 (fun _ => 0)
     (fun _ => ⟨le_refl 0, by norm_num⟩) 901 (by norm_num) 5⟩

end Siromix